import Mathlib

/-!
Shallow embedding of the sound-source-localization repository
(`method/gcc_phat.py`, `task/array_task.py`, `task/online_task.py`) and
proofs about it.  Exact-rational (`ℚ`) definitions model the integer and
rational parts of the numerical pipeline; real-valued (`ℝ`) definitions
model the geometric code that uses square roots.  Calls into external
libraries (`nara_wpe.utils.stft`, `np.fft.irfft`) are taken as function
parameters.
-/

set_option maxHeartbeats 1000000

namespace Gcc

/-! Constants from `method/gcc_phat.py`, lines 24-32.  The speed of sound
`c = 331.45*sqrt(1 + t/273.16)` enters every formula of the solver only
through its square, so the rational `cSq` is used; the link with the
square root form is proved in the claim theorem for the solver. -/

def microphoneNum : ℕ := 5

def armLength : ℚ := 0.32

def armRatio : ℚ := 0.4

def tAmbient : ℚ := 22

def cSq : ℚ := 331.45 ^ 2 * (1 + tAmbient / 273.16)

def epsilon : ℚ := 1e-8

/-- `GccPhat.locFromDelayList` (gcc_phat.py lines 136-162): closed-form
map from the 4 relative delays (seconds) to a 3D location. -/
def locFromDelayList (delayList : Fin 4 → ℚ) : Fin 3 → ℚ :=
  let detValue := delayList 2 - armRatio * delayList 0 - armRatio * delayList 1 + epsilon
  let tildeT21 := armLength ^ 2 - cSq * delayList 0 ^ 2
  let tildeT31 := armLength ^ 2 - cSq * delayList 1 ^ 2
  let tildeT41 := 2 * (armRatio * armLength) ^ 2 - cSq * delayList 2 ^ 2
  let tildeT51 := armLength ^ 2 - cSq * delayList 3 ^ 2
  let tildeX := (delayList 2 - armRatio * delayList 1) * tildeT21 +
    armRatio * delayList 0 * tildeT31 - delayList 0 * tildeT41
  let tildeY := (delayList 2 - armRatio * delayList 0) * tildeT31 +
    armRatio * delayList 1 * tildeT21 - delayList 1 * tildeT41
  let tildeZ := 2 * armRatio * armLength ^ 2 * delayList 3 * (1 - armRatio) +
    cSq * delayList 3 * (-armRatio * delayList 0 ^ 2 - armRatio * delayList 1 ^ 2 +
      delayList 2 ^ 2) + detValue * tildeT51
  fun i => ![tildeX, tildeY, tildeZ] i / (2 * armLength * detValue)

/-- `np.median` on a one-dimensional integer array: sort, take the middle
element for odd length, the mean of the two middle elements for even
length. -/
def npMedian (l : List ℤ) : ℚ :=
  if l.length % 2 = 1 then ((l.mergeSort.getD (l.length / 2) 0 : ℤ) : ℚ)
  else (((l.mergeSort.getD (l.length / 2 - 1) 0 : ℤ) : ℚ) +
    ((l.mergeSort.getD (l.length / 2) 0 : ℤ) : ℚ)) / 2

/-- `RecordingQueue4D` (gcc_phat.py lines 270-346): ring buffer of the
most recent 4-dimensional integer delay vectors.  `recQueue j` is column
`j` of the preallocated `(4, max_len)` array (only `j < maxLength` is
ever read). -/
structure RecordingQueue4D where
  maxLength : ℕ
  queueTail : ℤ
  recQueue : ℕ → Fin 4 → ℤ
  queueLen : ℕ

/-- `RecordingQueue4D.__init__` / the state after `clear()`. -/
def RecordingQueue4D.init (max_len : ℕ) : RecordingQueue4D :=
  ⟨max_len, -1, fun _ _ => 0, 0⟩

/-- `RecordingQueue4D.pushData` (lines 296-312): advance the ring tail,
saturate the length, overwrite the tail column. -/
def RecordingQueue4D.pushData (q : RecordingQueue4D) (data : Fin 4 → ℤ) : RecordingQueue4D :=
  let tail := (q.queueTail + 1) % (q.maxLength : ℤ)
  { q with
    queueTail := tail
    queueLen := min (q.queueLen + 1) q.maxLength
    recQueue := fun j a => if (j : ℤ) = tail then data a else q.recQueue j a }

/-- `RecordingQueue4D.getMedian` (lines 314-323): `np.median` along each
of the 4 delay axes, over all `maxLength` columns. -/
def RecordingQueue4D.getMedian (q : RecordingQueue4D) (a : Fin 4) : ℚ :=
  npMedian ((List.range q.maxLength).map fun j => q.recQueue j a)

/-- `RecordingQueue4D.isFull` (lines 325-334). -/
def RecordingQueue4D.isFull (q : RecordingQueue4D) : Bool :=
  q.queueLen == q.maxLength

/-- The tail of `GccPhat.onlineProcessData` (gcc_phat.py lines 94-102),
taking the delay vector `tau` computed by `onlineGccPhat` as input: push
`tau`, and once the filter queue is full return the solver applied to
the per-axis median divided by the sample rate, otherwise the all-zero
sentinel. -/
def onlineStep (q : RecordingQueue4D) (tau : Fin 4 → ℤ) (sampleRate : ℚ) :
    (Fin 3 → ℚ) × RecordingQueue4D :=
  let q1 := q.pushData tau
  if q1.isFull then
    (locFromDelayList (fun a => q1.getMedian a / sampleRate), q1)
  else
    (fun _ => 0, q1)

/-- Iterated `pushData` of `taus 0, …, taus (m-1)` into `q`. -/
def pushRun (q : RecordingQueue4D) (taus : ℕ → Fin 4 → ℤ) : ℕ → RecordingQueue4D
  | 0 => q
  | n + 1 => (pushRun q taus n).pushData (taus n)

/-- The online session: starting from a cleared filter of capacity `K`,
`runOnline K sr taus n` is the (output, state) of the `n`-th call (0-based)
to `onlineProcessData`, where `taus n` is the delay vector estimated from
the `n`-th frame. -/
def runOnline (K : ℕ) (sr : ℚ) (taus : ℕ → Fin 4 → ℤ) : ℕ → (Fin 3 → ℚ) × RecordingQueue4D
  | 0 => onlineStep (RecordingQueue4D.init K) (taus 0) sr
  | n + 1 => onlineStep (runOnline K sr taus n).2 (taus (n + 1)) sr

/-! Preprocessing of `onlineProcessData` (gcc_phat.py lines 87-92):
`signal = np.array(dataBuffer).reshape(-1, 8).T; signal = signal[:5]`,
then per-channel mean removal and division by the per-channel maximum of
absolute values plus `epsilon` (`axis=1, keepdims=True`). -/

/-- Channel `c` of the reshaped frame: entries `dataBuffer[n*8 + c]`. -/
def onlineSignal (dataBuffer : List ℚ) (c : Fin 5) : List ℚ :=
  (List.range (dataBuffer.length / 8)).map fun n => dataBuffer.getD (n * 8 + (c : ℕ)) 0

/-- `np.mean` of one channel. -/
def npMean (xs : List ℚ) : ℚ := xs.sum / (xs.length : ℚ)

/-- `np.max(np.abs(xs))` of one channel (absolute values are nonnegative,
so folding `max` from `0` agrees with `np.max` on nonempty input). -/
def npMaxAbs (xs : List ℚ) : ℚ := (xs.map fun x => |x|).foldr max 0

/-- The normalization the code performs: `axis=1, keepdims=True` makes
both the mean and the maximum per-channel quantities. -/
def normalizeCode (signal : Fin 5 → List ℚ) (c : Fin 5) : List ℚ :=
  ((signal c).map fun x => x - npMean (signal c)).map
    fun x => x / (npMaxAbs (signal c) + epsilon)

/-- Modelled from the spec: the normalization the specification describes,
with one factor shared by all 5 channels, namely the maximum absolute
sample across all 5 channels plus `epsilon`. -/
def normalizeShared (signal : Fin 5 → List ℚ) (c : Fin 5) : List ℚ :=
  let m := ((List.finRange 5).map fun d => npMaxAbs (signal d)).foldr max 0
  ((signal c).map fun x => x - npMean (signal c)).map fun x => x / (m + epsilon)

/-- The preprocessing of `onlineProcessData` on one raw frame. -/
def onlinePreprocess (dataBuffer : List ℚ) (c : Fin 5) : List ℚ :=
  normalizeCode (onlineSignal dataBuffer) c

/-- Specification of the ring-buffer columns after `m` pushes of
`taus 0, …, taus (m-1)` into a cleared queue of capacity `K`: while the
queue is filling, column `j` holds `taus j` (or the initial zeros); in the
steady state, column `j` holds the most recent `taus` value whose index is
congruent to `j` modulo `K`. -/
def colSpec (K : ℕ) (taus : ℕ → Fin 4 → ℤ) (m j : ℕ) : Fin 4 → ℤ :=
  if m ≤ K then (if j < m then taus j else fun _ => 0)
  else if j ≤ (m - 1) % K then taus (m - 1 - (m - 1) % K + j)
  else taus (m - 1 - (m - 1) % K + j - K)

/-- Concrete raw frame used to separate per-channel from shared
normalization: two samples of 8 interleaved channels, channel 0 holding
`1, -1` and channel 1 holding `2, -2`. -/
def bufC1 : List ℚ := [1, 2, 0, 0, 0, 0, 0, 0, -1, -2, 0, 0, 0, 0, 0, 0]

end Gcc

namespace Arr

/-! Embedding of `task/array_task.py` over the exact reals: the geometry
validator `ArrayParam.validParamOfGiven` and the condition-number scanner
`ArrayTask.arrayScanCond`.  `np.linalg.norm` and the float comparisons
are modelled by their exact real counterparts; comparisons on reals are
classical. -/

open Classical

/-- `epsilon` from `array_task.py` line 24. -/
def epsilon : ℝ := 1e-8

/-- Default microphone coordinates from `ArrayParam.__init__`
(array_task.py lines 44-50). -/
def micCoordsDefault : Fin 5 → Fin 3 → ℝ :=
  ![![0, 0, 0], ![0.32, 0, 0], ![0, 0.32, 0], ![0.128, 0.128, 0], ![0, 0, 0.32]]

/-- Euclidean norm of a 3-vector (`np.linalg.norm` on one row). -/
noncomputable def norm3 (v : Fin 3 → ℝ) : ℝ := Real.sqrt (v 0 ^ 2 + v 1 ^ 2 + v 2 ^ 2)

/-- `dist = np.linalg.norm(micCoords - dloc, axis=1)` (line 465). -/
noncomputable def micDist (mic : Fin 5 → Fin 3 → ℝ) (p : Fin 3 → ℝ) (i : Fin 5) : ℝ :=
  norm3 fun j => mic i j - p j

/-- `gridDist[pairIdx] = dist[0] - dist[pairIdx + 1]` (lines 469-470). -/
noncomputable def gridDist (mic : Fin 5 → Fin 3 → ℝ) (p : Fin 3 → ℝ) (i : Fin 4) : ℝ :=
  micDist mic p 0 - micDist mic p i.succ

/-- The scanned 4×4 matrix (lines 444-447 and 471): entry `(i, j)` for
`j < 3` is `micCoords[i+1, j] - micCoords[0, j]`, and column 3 holds the
per-point differential ranges. -/
def matrixQ (mic : Fin 5 → Fin 3 → ℝ) (gd : Fin 4 → ℝ) : Matrix (Fin 4) (Fin 4) ℝ :=
  Matrix.of fun i j => if h : (j : ℕ) < 3 then mic i.succ ⟨j, h⟩ - mic 0 ⟨j, h⟩ else gd i

/-- Infinity (maximum row sum) norm of a 4×4 real matrix. -/
noncomputable def rowSumNorm (A : Matrix (Fin 4) (Fin 4) ℝ) : ℝ :=
  Finset.univ.sup' Finset.univ_nonempty fun i => ∑ j : Fin 4, |A i j|

/-- `np.linalg.cond(Q, np.inf) = norm(Q, inf) * norm(inv(Q), inf)`
(line 473), in exact arithmetic. -/
noncomputable def condInf (A : Matrix (Fin 4) (Fin 4) ℝ) : ℝ :=
  rowSumNorm A * rowSumNorm A⁻¹

/-- `np.arange(start, stop, step)` for positive step (lines 449-451). -/
noncomputable def arange (start stop step : ℝ) : List ℝ :=
  (List.range ⌈(stop - start) / step⌉₊).map fun k => start + k * step

/-- The search grid (lines 449-452): `meshgrid(..., indexing='ij')`
flattened in row-major order. -/
noncomputable def gridPoints (xlim ylim zlim : ℝ × ℝ) (step : ℝ) : List (Fin 3 → ℝ) :=
  (arange xlim.1 (xlim.2 + 0.5 * step) step).flatMap fun x =>
    (arange ylim.1 (ylim.2 + 0.5 * step) step).flatMap fun y =>
      (arange zlim.1 (zlim.2 + 0.5 * step) step).map fun z => ![x, y, z]

/-- One iteration of the scan loop (lines 462-475) for a run in which the
start flag stays set: skip the point when the minimum microphone distance
is below 0.05; otherwise evaluate the condition number and keep the
point.  `np.linalg.inv` inside `np.linalg.cond` raises `LinAlgError` on
an exactly singular matrix, modelled as `none`; in exact arithmetic the
computed condition number is a real number, so the NaN/Inf filter of
line 474 keeps every evaluated point. -/
noncomputable def scanPointStep (mic : Fin 5 → Fin 3 → ℝ)
    (acc : List ((Fin 3 → ℝ) × ℝ)) (p : Fin 3 → ℝ) : Option (List ((Fin 3 → ℝ) × ℝ)) :=
  if (Finset.univ.inf' Finset.univ_nonempty fun i => micDist mic p i) < 0.05 then some acc
  else if IsUnit (matrixQ mic (gridDist mic p)).det then
    some (acc ++ [(p, condInf (matrixQ mic (gridDist mic p)))])
  else none

/-- `ArrayTask.arrayScanCond` (lines 429-479): fold the scan step over
the grid; return `None` when no point survives. -/
noncomputable def arrayScanCond (mic : Fin 5 → Fin 3 → ℝ) (xlim ylim zlim : ℝ × ℝ)
    (step : ℝ) : Option (List ((Fin 3 → ℝ) × ℝ)) :=
  match (gridPoints xlim ylim zlim step).foldlM (scanPointStep mic) [] with
  | none => none
  | some results => if results = [] then none else some results

/-- `np.cross(v1, v2)` for 3-vectors (line 250). -/
def cross3 (u v : Fin 3 → ℝ) : Fin 3 → ℝ :=
  ![u 1 * v 2 - u 2 * v 1, u 2 * v 0 - u 0 * v 2, u 0 * v 1 - u 1 * v 0]

/-- `v1 = b - a` (line 248). -/
def micV1 (mic : Fin 5 → Fin 3 → ℝ) : Fin 3 → ℝ := fun j => mic 1 j - mic 0 j

/-- `v2 = c - a` (line 249). -/
def micV2 (mic : Fin 5 → Fin 3 → ℝ) : Fin 3 → ℝ := fun j => mic 2 j - mic 0 j

/-- `normal = np.cross(v1, v2)` (line 250). -/
def micNormal (mic : Fin 5 → Fin 3 → ℝ) : Fin 3 → ℝ := cross3 (micV1 mic) (micV2 mic)

/-- `dist_plane = np.dot(normal, p4 - a)` (line 256). -/
def micDistPlane (mic : Fin 5 → Fin 3 → ℝ) : ℝ :=
  micNormal mic 0 * (mic 4 0 - mic 0 0) + micNormal mic 1 * (mic 4 1 - mic 0 1) +
    micNormal mic 2 * (mic 4 2 - mic 0 2)

/-- `M = np.column_stack((b - a, c - a, p4 - a))` (line 264). -/
def micM (mic : Fin 5 → Fin 3 → ℝ) : Matrix (Fin 3) (Fin 3) ℝ :=
  Matrix.of fun i j => ![micV1 mic, micV2 mic, fun k => mic 4 k - mic 0 k] j i

/-- `uvw = np.linalg.solve(M, p3 - a)` (line 270): the code only reaches
this line when `|det M| > epsilon`, where the solution is `M⁻¹ (p3-a)`. -/
noncomputable def micUVW (mic : Fin 5 → Fin 3 → ℝ) : Fin 3 → ℝ :=
  (micM mic)⁻¹.mulVec fun j => mic 3 j - mic 0 j

/-- `ArrayParam.validParamOfGiven` (lines 195-280).  The shape and length
checks of the Python code are enforced by the types. -/
noncomputable def validParamOfGiven (mic : Fin 5 → Fin 3 → ℝ)
    (xlim ylim zlim : ℝ × ℝ) (step : Option ℝ) : Bool :=
  if xlim.1 > xlim.2 ∨ ylim.1 > ylim.2 ∨ zlim.1 > zlim.2 then false
  else if (match step with | some s => s ≤ 0 ∨ 1 < s | none => False) then false
  else if norm3 (micNormal mic) ≤ epsilon then false
  else if |micDistPlane mic| ≤ epsilon * max 1 (norm3 (micNormal mic)) then false
  else if |(micM mic).det| ≤ epsilon then false
  else if ¬(micUVW mic 0 ≥ -epsilon ∧ micUVW mic 1 ≥ -epsilon ∧ micUVW mic 2 ≥ -epsilon ∧
      micUVW mic 0 + micUVW mic 1 + micUVW mic 2 ≤ 1 + epsilon) then false
  else true

end Arr

namespace Online

/-! Embedding of `OnlineTask.startOnlineTask` (task/online_task.py lines
240-295).  The producer thread and the blocking queue are abstracted into
the finite sequence of frames the consumer loop successfully pops before
the loop ends, together with the way it ends; device, flag, queue and
thread bookkeeping are explicit state. -/

/-- A frame buffer popped from the data queue; the empty list is the
Python-falsy value of line 275. -/
abbrev Frame := List ℤ

/-- The externally visible resources of one online session. -/
structure SessionState where
  startFlag : Bool
  deviceOpen : Bool
  producerStarted : Bool
  producerJoined : Bool
  dataQueue : List Frame

/-- State before `startOnlineTask` is called. -/
def initialState : SessionState :=
  ⟨false, false, false, false, []⟩

/-- How the consumer loop of lines 273-281 stops iterating:
`stopRequested` models `stopOnlineTask` having cleared `_startFlag`
before the next iteration; `queueTimeout` models `queue.get(timeout=1.0)`
raising `queue.Empty`; `processingError` models any other exception in
the loop body. -/
inductive LoopEnd where
  | stopRequested
  | queueTimeout
  | processingError

/-- The cleanup shared by the `except` branch (lines 282-288) and the
`else` branch (lines 289-295): clear the running flag, join the producer
if it was started, clear the data queue, close the device. -/
def sessionCleanup (s : SessionState) : SessionState :=
  { s with
    startFlag := false
    producerJoined := s.producerStarted || s.producerJoined
    dataQueue := []
    deviceOpen := false }

/-- The consumer loop (lines 273-281): pop each frame in turn; a falsy
frame raises `queue.Empty` (lines 275-276) and lands in the `except`
branch; when the frames are exhausted, the loop ends as `ending`
dictates — a requested stop reaches the `else` branch and reports
`true`, a timeout or another exception reaches the `except` branch and
reports `false`. -/
def consumerLoop : List Frame → LoopEnd → SessionState → SessionState × Bool
  | [], ending, s =>
    match ending with
    | LoopEnd.stopRequested => (sessionCleanup s, true)
    | _ => (sessionCleanup s, false)
  | f :: rest, ending, s =>
    if f.isEmpty then (sessionCleanup s, false)
    else consumerLoop rest ending s

/-- `OnlineTask.startOnlineTask` (lines 240-295): clear the queue, open
the device (`retOpen` is the driver return code, 0 on success; on failure
close the device and report `false`, lines 258-261), set the flag, start
the producer, and run the consumer loop. -/
def startOnlineTask (retOpen : ℤ) (frames : List Frame) (ending : LoopEnd)
    (s0 : SessionState) : SessionState × Bool :=
  let s1 := { s0 with dataQueue := [] }
  if retOpen ≠ 0 then
    ({ s1 with deviceOpen := false }, false)
  else
    consumerLoop frames ending
      { s1 with startFlag := true, deviceOpen := true, producerStarted := true }

end Online

namespace Off

/-! Embedding of `GccPhat.offlineGccPhat` (gcc_phat.py lines 209-267):
the pair bookkeeping between the STFT (external `nara_wpe.utils.stft`)
and the inverse FFT (external `np.fft.irfft`), both taken as parameters.
`pZ c k` is the PHAT-weighted spectrum of microphone `c` at flattened
bin `k = t*numFreq + f` (the `reshape((5, -1))` of line 242). -/

open Classical

/-- `epsilon` of gcc_phat.py line 32, as a real number. -/
def epsilon : ℝ := 1e-8

/-- `stftShift = sampleNum // 2` (line 232): the hop is half the window. -/
def stftShift (sampleNum : ℕ) : ℕ := sampleNum / 2

/-- `numFreq = sampleNum // 2 + 1` (line 233). -/
def numFreq (sampleNum : ℕ) : ℕ := sampleNum / 2 + 1

/-- PHAT weighting (lines 244-246): divide each bin by its magnitude,
clamped below by `epsilon`. -/
noncomputable def phat (z : ℂ) : ℂ :=
  z / (if Complex.abs z < epsilon then (epsilon : ℂ) else (Complex.abs z : ℂ))

/-- The flattened upper-triangle mask of a 5×5 matrix in row-major order
(lines 253-258): index `idx = i*5 + j` is kept when `i < j`. -/
def maskTriu : List ℕ := (List.range 25).filter fun idx => idx / 5 < idx % 5

/-- `cc[k][i][j] = pZ[i, k] * conj(pZ[j, k])` (lines 248-252). -/
noncomputable def ccEntry (pZ : ℕ → ℕ → ℂ) (k i j : ℕ) : ℂ :=
  pZ i k * (starRingEnd ℂ) (pZ j k)

/-- The 10 upper-triangle pair values at flattened bin `k`
(`ccFlat = cc.reshape((-1, 25))[:, mask_triu]`, line 258). -/
noncomputable def ccFlatPairs (pZ : ℕ → ℕ → ℂ) (k : ℕ) : List ℂ :=
  maskTriu.map fun idx => ccEntry pZ k (idx / 5) (idx % 5)

/-- Row `(t, p)` after `reshape((-1, numFreq, 10)).transpose(0, 2, 1)`
(line 260): pair `p` across the `F` frequency bins of frame `t`. -/
noncomputable def ccRow (pZ : ℕ → ℕ → ℂ) (F t p : ℕ) : List ℂ :=
  (List.range F).map fun f => (ccFlatPairs pZ (t * F + f)).getD p 0

/-- All 10 rows of frame `t` after the row-wise inverse FFT (line 263). -/
noncomputable def gccRows (irfft : List ℂ → List ℝ) (pZ : ℕ → ℕ → ℂ) (F t : ℕ) :
    List (List ℝ) :=
  ((List.range 10).map fun p => ccRow pZ F t p).map irfft

/-- `gccPhat = gccPhat[:, :4, :]` (line 264): keep the first 4 pair rows. -/
noncomputable def gccRowsTop4 (irfft : List ℂ → List ℝ) (pZ : ℕ → ℕ → ℂ) (F t : ℕ) :
    List (List ℝ) :=
  (gccRows irfft pZ F t).take 4

/-- `np.argmax`: first index attaining the maximum (the code applies it
to nonempty lists of absolute values, where folding `max` from 0 is the
maximum). -/
noncomputable def npArgmax (l : List ℝ) : ℕ := l.indexOf (l.foldr max 0)

/-- `tau.T` (lines 265-267): entry `(p, t)` of the returned 4×T integer
matrix of sample offsets, `argmax(|gccPhat|) - stftShift`. -/
noncomputable def offlineTau (irfft : List ℂ → List ℝ) (pZ : ℕ → ℕ → ℂ)
    (sampleNum t : ℕ) (p : Fin 4) : ℤ :=
  (npArgmax (((gccRowsTop4 irfft pZ (numFreq sampleNum) t).getD p []).map fun x => |x|) : ℤ)
    - (stftShift sampleNum : ℤ)

end Off

namespace Gcc

/-! Ring-buffer invariants for `pushRun`. -/

theorem pushRun_maxLength (K : ℕ) (taus : ℕ → Fin 4 → ℤ) (m : ℕ) :
    (pushRun (RecordingQueue4D.init K) taus m).maxLength = K := by
  induction m with
  | zero => rfl
  | succ m ih => simpa [pushRun, RecordingQueue4D.pushData] using ih

theorem pushRun_queueLen (K : ℕ) (taus : ℕ → Fin 4 → ℤ) (m : ℕ) :
    (pushRun (RecordingQueue4D.init K) taus m).queueLen = min m K := by
  induction m with
  | zero => simp [pushRun, RecordingQueue4D.init]
  | succ m ih =>
    have hL := pushRun_maxLength K taus m
    show min ((pushRun (RecordingQueue4D.init K) taus m).queueLen + 1)
        (pushRun (RecordingQueue4D.init K) taus m).maxLength = min (m + 1) K
    rw [ih, hL]
    omega

theorem pushRun_queueTail (K : ℕ) (hK : 0 < K) (taus : ℕ → Fin 4 → ℤ) (m : ℕ) :
    (pushRun (RecordingQueue4D.init K) taus m).queueTail =
      (if m = 0 then (-1 : ℤ) else (((m - 1) % K : ℕ) : ℤ)) := by
  induction m with
  | zero => rfl
  | succ m ih =>
    have hL := pushRun_maxLength K taus m
    show ((pushRun (RecordingQueue4D.init K) taus m).queueTail + 1) %
        ((pushRun (RecordingQueue4D.init K) taus m).maxLength : ℤ) = _
    rw [ih, hL, if_neg (Nat.succ_ne_zero m)]
    rcases Nat.eq_zero_or_pos m with hm | hm
    · subst hm
      simp
    · rw [if_neg (by omega), Int.natCast_mod, Int.emod_add_emod,
        show ((m - 1 : ℕ) : ℤ) + 1 = (m : ℤ) by omega, Nat.add_sub_cancel]
      exact (Int.natCast_mod m K).symm

theorem pushRun_recQueue (K : ℕ) (hK : 0 < K) (taus : ℕ → Fin 4 → ℤ) (m : ℕ) :
    ∀ j, j < K → (pushRun (RecordingQueue4D.init K) taus m).recQueue j =
      colSpec K taus m j := by
  induction m with
  | zero =>
    intro j hj
    funext a
    simp [pushRun, RecordingQueue4D.init, colSpec]
  | succ m ih =>
    intro j hj
    have hT := pushRun_queueTail K hK taus m
    have hL := pushRun_maxLength K taus m
    have htail : ((pushRun (RecordingQueue4D.init K) taus m).queueTail + 1) %
        ((pushRun (RecordingQueue4D.init K) taus m).maxLength : ℤ) = ((m % K : ℕ) : ℤ) := by
      rw [hT, hL]
      rcases Nat.eq_zero_or_pos m with hm | hm
      · subst hm; simp
      · rw [if_neg (by omega), Int.natCast_mod, Int.emod_add_emod,
          show ((m - 1 : ℕ) : ℤ) + 1 = (m : ℤ) by omega]
        exact (Int.natCast_mod m K).symm
    funext a
    show (if ((j : ℤ)) = ((pushRun (RecordingQueue4D.init K) taus m).queueTail + 1) %
        ((pushRun (RecordingQueue4D.init K) taus m).maxLength : ℤ) then taus m a
      else (pushRun (RecordingQueue4D.init K) taus m).recQueue j a) = colSpec K taus (m + 1) j a
    rw [htail]
    have hmodK : m % K < K := Nat.mod_lt _ hK
    have hmodle : m % K ≤ m := Nat.mod_le _ _
    have hs : (m - 1) % K < K := Nat.mod_lt _ hK
    have hsle : (m - 1) % K ≤ m - 1 := Nat.mod_le _ _
    by_cases hjm : j = m % K
    · rw [if_pos (by exact_mod_cast congrArg (Nat.cast : ℕ → ℤ) hjm)]
      rcases le_or_lt (m + 1) K with hmK | hmK
      · have hmm : m % K = m := Nat.mod_eq_of_lt (by omega)
        simp only [colSpec, Nat.add_sub_cancel]
        split_ifs <;> first | rfl | (exfalso; omega) | (congr 1; omega)
      · rcases le_or_lt m K with hmK2 | hmK2
        · have hm0 : m % K = 0 := by
            rw [show m = K by omega]
            exact Nat.mod_self K
          simp only [colSpec, Nat.add_sub_cancel]
          split_ifs <;> first | rfl | (exfalso; omega) | (congr 1; omega)
        · have hrel : m % K = ((m - 1) % K + 1) % K := by
            rw [Nat.mod_add_mod, show m - 1 + 1 = m by omega]
          rcases lt_or_ge ((m - 1) % K + 1) K with hlt | hge
          · have hr : m % K = (m - 1) % K + 1 := by
              rw [hrel]; exact Nat.mod_eq_of_lt hlt
            simp only [colSpec, Nat.add_sub_cancel]
            split_ifs <;> first | rfl | (exfalso; omega) | (congr 1; omega)
          · have heq2 : (m - 1) % K + 1 = K := by omega
            have hr : m % K = 0 := by rw [hrel, heq2, Nat.mod_self]
            simp only [colSpec, Nat.add_sub_cancel]
            split_ifs <;> first | rfl | (exfalso; omega) | (congr 1; omega)
    · rw [if_neg (fun h => hjm (by exact_mod_cast h)), ih j hj]
      rcases le_or_lt (m + 1) K with hmK | hmK
      · have hmm : m % K = m := Nat.mod_eq_of_lt (by omega)
        simp only [colSpec, Nat.add_sub_cancel]
        split_ifs <;> first | rfl | (exfalso; omega) | (congr 1; omega)
      · rcases le_or_lt m K with hmK2 | hmK2
        · have hm0 : m % K = 0 := by
            rw [show m = K by omega]
            exact Nat.mod_self K
          simp only [colSpec, Nat.add_sub_cancel]
          split_ifs <;> first | rfl | (exfalso; omega) | (congr 1; omega)
        · have hrel : m % K = ((m - 1) % K + 1) % K := by
            rw [Nat.mod_add_mod, show m - 1 + 1 = m by omega]
          rcases lt_or_ge ((m - 1) % K + 1) K with hlt | hge
          · have hr : m % K = (m - 1) % K + 1 := by
              rw [hrel]; exact Nat.mod_eq_of_lt hlt
            simp only [colSpec, Nat.add_sub_cancel]
            split_ifs <;> first | rfl | (exfalso; omega) | (congr 1; omega)
          · have heq2 : (m - 1) % K + 1 = K := by omega
            have hr : m % K = 0 := by rw [hrel, heq2, Nat.mod_self]
            simp only [colSpec, Nat.add_sub_cancel]
            split_ifs <;> first | rfl | (exfalso; omega) | (congr 1; omega)

/-! Properties of `npMedian`. -/

theorem mergeSort_eq_of_sorted_perm {l s : List ℤ} (h : l.Perm s) (hs : s.Sorted (· ≤ ·)) :
    l.mergeSort = s :=
  List.eq_of_perm_of_sorted ((List.mergeSort_perm l _).trans h) (List.sorted_mergeSort' l) hs

theorem npMedian_perm {l l' : List ℤ} (h : l.Perm l') : npMedian l = npMedian l' := by
  unfold npMedian
  rw [h.length_eq,
    mergeSort_eq_of_sorted_perm (h.trans (List.mergeSort_perm l' _).symm)
      (List.sorted_mergeSort' l')]

theorem sorted_replicate_le (n : ℕ) (x : ℤ) : (List.replicate n x).Sorted (· ≤ ·) :=
  List.pairwise_replicate.mpr (Or.inr le_rfl)

theorem getD_replicate_lemma (x d : ℤ) : ∀ (n i : ℕ), i < n →
    (List.replicate n x).getD i d = x := by
  intro n
  induction n with
  | zero => omega
  | succ n ih =>
    intro i hi
    rw [List.replicate_succ]
    cases i with
    | zero => rfl
    | succ i => rw [List.getD_cons_succ]; exact ih i (by omega)

theorem npMedian_replicate {K : ℕ} (hK : 1 ≤ K) (x : ℤ) :
    npMedian (List.replicate K x) = (x : ℚ) := by
  unfold npMedian
  rw [mergeSort_eq_of_sorted_perm (List.Perm.refl _) (sorted_replicate_le K x),
    List.length_replicate]
  split_ifs with hpar
  · rw [getD_replicate_lemma x 0 K (K / 2) (by omega)]
  · rw [getD_replicate_lemma x 0 K (K / 2 - 1) (by omega),
      getD_replicate_lemma x 0 K (K / 2) (by omega)]
    ring

theorem npMedian_majority {K : ℕ} (hK : 3 ≤ K) (x y : ℤ) {l : List ℤ}
    (hp : l.Perm (y :: List.replicate (K - 1) x)) : npMedian l = (x : ℚ) := by
  have hlen : l.length = K := by
    have := hp.length_eq
    simp only [List.length_cons, List.length_replicate] at this
    omega
  rcases le_or_lt y x with hyx | hxy
  · have hsort : (y :: List.replicate (K - 1) x).Sorted (· ≤ ·) := by
      rw [List.sorted_cons]
      exact ⟨fun b hb => by rw [List.eq_of_mem_replicate hb]; exact hyx,
        sorted_replicate_le _ x⟩
    have hcons : ∀ i, 1 ≤ i → i ≤ K - 1 → (y :: List.replicate (K - 1) x).getD i 0 = x := by
      intro i h1 h2
      obtain ⟨i', rfl⟩ : ∃ i', i = i' + 1 := ⟨i - 1, by omega⟩
      rw [List.getD_cons_succ]
      exact getD_replicate_lemma x 0 (K - 1) i' (by omega)
    unfold npMedian
    rw [mergeSort_eq_of_sorted_perm hp hsort, hlen]
    split_ifs with hpar
    · rw [hcons (K / 2) (by omega) (by omega)]
    · rw [hcons (K / 2 - 1) (by omega) (by omega), hcons (K / 2) (by omega) (by omega)]
      ring
  · have hsort : (List.replicate (K - 1) x ++ [y]).Sorted (· ≤ ·) := by
      refine List.pairwise_append.mpr
        ⟨sorted_replicate_le _ x, List.sorted_singleton y, ?_⟩
      intro a ha b hb
      rw [List.eq_of_mem_replicate ha, List.mem_singleton.mp hb]
      exact le_of_lt hxy
    have happ : ∀ i, i < K - 1 → (List.replicate (K - 1) x ++ [y]).getD i 0 = x := by
      intro i hi
      rw [List.getD_append _ _ _ _ (by simpa using hi)]
      exact getD_replicate_lemma x 0 (K - 1) i hi
    have hp2 : l.Perm (List.replicate (K - 1) x ++ [y]) :=
      hp.trans (@List.perm_append_comm _ [y] (List.replicate (K - 1) x))
    unfold npMedian
    rw [mergeSort_eq_of_sorted_perm hp2 hsort, hlen]
    split_ifs with hpar
    · rw [happ (K / 2) (by omega)]
    · rw [happ (K / 2 - 1) (by omega), happ (K / 2) (by omega)]
      ring

theorem map_range_perm_outlier {β : Type} (K i : ℕ) (hi : i < K) (f : ℕ → β) (x : β)
    (hf : ∀ j, j < K → j ≠ i → f j = x) :
    ((List.range K).map f).Perm (f i :: List.replicate (K - 1) x) := by
  have hmem : i ∈ List.range K := List.mem_range.mpr hi
  have hperm : (List.range K).Perm (i :: (List.range K).erase i) := List.perm_cons_erase hmem
  have heq : ((List.range K).erase i).map f = List.replicate (K - 1) x := by
    have hnd : (List.range K).Nodup := List.nodup_range K
    have hcongr : ∀ j ∈ (List.range K).erase i, f j = x := by
      intro j hj
      obtain ⟨hne, hjr⟩ := hnd.mem_erase_iff.mp hj
      exact hf j (List.mem_range.mp hjr) hne
    rw [List.map_congr_left hcongr, List.map_const', List.length_erase_of_mem hmem,
      List.length_range]
  have h2 := hperm.map f
  rw [List.map_cons, heq] at h2
  exact h2

/-! The last `K` delay vectors are exactly the ring-buffer contents, up to
rotation. -/

theorem cols_window_perm (K n : ℕ) (hK : 0 < K) (hKn : K ≤ n + 1)
    (taus : ℕ → Fin 4 → ℤ) (a : Fin 4) :
    (((List.range K).map fun j => colSpec K taus (n + 1) j a)).Perm
      ((List.range K).map fun i => taus (n + 1 - K + i) a) := by
  have hkey : (List.range K).map (fun j => colSpec K taus (n + 1) j a) =
      ((List.range K).map fun i => taus (n + 1 - K + i) a).rotate (K - 1 - n % K) := by
    apply List.ext_getElem
    · simp [List.length_rotate]
    · intro j hj1 hj2
      rw [List.getElem_rotate]
      simp only [List.getElem_map, List.getElem_range, List.length_map, List.length_range]
      simp only [List.length_map, List.length_range] at hj1 hj2
      have hrK : n % K < K := Nat.mod_lt _ hK
      have hrle : n % K ≤ n := Nat.mod_le _ _
      rcases le_or_lt (n + 1) K with hle | hgt
      · have heq : n + 1 = K := by omega
        have hr2 : n % K = n := Nat.mod_eq_of_lt (by omega)
        have ht0 : K - 1 - n % K = 0 := by omega
        rw [colSpec, if_pos (by omega), if_pos (by omega : j < n + 1), ht0]
        have hj0 : (j + 0) % K = j := by
          rw [Nat.add_zero]; exact Nat.mod_eq_of_lt (by omega)
        rw [hj0]
        congr 1
        omega
      · rw [colSpec, if_neg (by omega)]
        simp only [Nat.add_sub_cancel]
        by_cases hjr : j ≤ n % K
        · rw [if_pos hjr]
          have hmod : (j + (K - 1 - n % K)) % K = j + (K - 1 - n % K) :=
            Nat.mod_eq_of_lt (by omega)
          rw [hmod]
          congr 1
          omega
        · rw [if_neg hjr]
          have hge : K ≤ j + (K - 1 - n % K) := by omega
          have hmod : (j + (K - 1 - n % K)) % K = j + (K - 1 - n % K) - K := by
            rw [Nat.mod_eq_sub_mod hge]
            exact Nat.mod_eq_of_lt (by omega)
          rw [hmod]
          congr 1
          omega
  rw [hkey]
  exact List.rotate_perm _ _

/-! Glue between `runOnline`, `onlineStep` and `pushRun`. -/

theorem onlineStep_snd (q : RecordingQueue4D) (tau : Fin 4 → ℤ) (sr : ℚ) :
    (onlineStep q tau sr).2 = q.pushData tau := by
  unfold onlineStep
  dsimp only
  split <;> rfl

theorem runOnline_snd (K : ℕ) (sr : ℚ) (taus : ℕ → Fin 4 → ℤ) (n : ℕ) :
    (runOnline K sr taus n).2 = pushRun (RecordingQueue4D.init K) taus (n + 1) := by
  induction n with
  | zero => exact onlineStep_snd _ _ _
  | succ n ih =>
    show (onlineStep (runOnline K sr taus n).2 (taus (n + 1)) sr).2 = _
    rw [onlineStep_snd, ih]
    rfl

theorem runOnline_fst (K : ℕ) (sr : ℚ) (taus : ℕ → Fin 4 → ℤ) (n : ℕ) :
    (runOnline K sr taus n).1 =
      (onlineStep (pushRun (RecordingQueue4D.init K) taus n) (taus n) sr).1 := by
  cases n with
  | zero => rfl
  | succ n =>
    show (onlineStep (runOnline K sr taus n).2 (taus (n + 1)) sr).1 = _
    rw [runOnline_snd]

theorem pushRun_isFull_iff (K : ℕ) (taus : ℕ → Fin 4 → ℤ) (m : ℕ) :
    (pushRun (RecordingQueue4D.init K) taus m).isFull = true ↔ K ≤ m := by
  unfold RecordingQueue4D.isFull
  rw [pushRun_queueLen, pushRun_maxLength, beq_iff_eq]
  omega

theorem getMedian_window (K n : ℕ) (hK : 0 < K) (hKn : K ≤ n + 1)
    (taus : ℕ → Fin 4 → ℤ) (a : Fin 4) :
    (pushRun (RecordingQueue4D.init K) taus (n + 1)).getMedian a =
      npMedian ((List.range K).map fun i => taus (n + 1 - K + i) a) := by
  unfold RecordingQueue4D.getMedian
  rw [pushRun_maxLength]
  have hc : ∀ j ∈ List.range K,
      (pushRun (RecordingQueue4D.init K) taus (n + 1)).recQueue j a =
        colSpec K taus (n + 1) j a := by
    intro j hj
    rw [pushRun_recQueue K hK taus (n + 1) j (List.mem_range.mp hj)]
  rw [List.map_congr_left hc]
  exact npMedian_perm (cols_window_perm K n hK hKn taus a)

theorem pushRun_full_cols (K : ℕ) (hK : 0 < K) (vs : ℕ → Fin 4 → ℤ) (a : Fin 4) :
    ((List.range K).map fun j =>
        (pushRun (RecordingQueue4D.init K) vs K).recQueue j a) =
      (List.range K).map fun j => vs j a := by
  apply List.map_congr_left
  intro j hj
  have hjK := List.mem_range.mp hj
  rw [pushRun_recQueue K hK vs K j hjK, colSpec, if_pos le_rfl, if_pos hjK]

/-- C1 (counterexample): on the concrete two-sample frame `bufC1`, the
preprocessing of `onlineProcessData` differs (already in its first sample
of channel 0) from the specified normalization by one factor shared
across all 5 channels, so the code's normalization is not the shared one
claimed. -/
theorem spec2proof_c1_counterexample :
    (onlinePreprocess bufC1 0).getD 0 0 ≠ (normalizeShared (onlineSignal bufC1) 0).getD 0 0 := by
  have e0 : ((0 : Fin 5) : ℕ) = 0 := rfl
  have e1 : ((1 : Fin 5) : ℕ) = 1 := rfl
  have e2 : ((2 : Fin 5) : ℕ) = 2 := rfl
  have e3 : ((3 : Fin 5) : ℕ) = 3 := rfl
  have e4 : ((4 : Fin 5) : ℕ) = 4 := rfl
  have h0 : onlineSignal bufC1 0 = [1, -1] := by
    simp only [onlineSignal, bufC1, e0]; norm_num [List.range_succ]
  have h1 : onlineSignal bufC1 1 = [2, -2] := by
    simp only [onlineSignal, bufC1, e1]; norm_num [List.range_succ]
  have h2 : onlineSignal bufC1 2 = [0, 0] := by
    simp only [onlineSignal, bufC1, e2]; norm_num [List.range_succ]
  have h3 : onlineSignal bufC1 3 = [0, 0] := by
    simp only [onlineSignal, bufC1, e3]; norm_num [List.range_succ]
  have h4 : onlineSignal bufC1 4 = [0, 0] := by
    simp only [onlineSignal, bufC1, e4]; norm_num [List.range_succ]
  have hfr : List.finRange 5 = [0, 1, 2, 3, 4] := by decide
  simp only [onlinePreprocess, normalizeCode, normalizeShared, hfr, List.map_cons,
    List.map_nil, h0, h1, h2, h3, h4]
  norm_num [npMean, npMaxAbs, epsilon]

/-- C1 (amended): in the online preprocessing each channel is divided by
its own maximum absolute sample plus `epsilon` (a per-channel factor,
`axis=1, keepdims=True`), after subtracting that channel's mean; the
divisor is a function of the channel's own samples only, not a scalar
shared across the 5 channels. -/
theorem spec2proof_c1_per_channel_normalization (dataBuffer : List ℚ) (c : Fin 5) :
    onlinePreprocess dataBuffer c =
      (onlineSignal dataBuffer c).map fun x =>
        (x - npMean (onlineSignal dataBuffer c)) /
          (npMaxAbs (onlineSignal dataBuffer c) + epsilon) := by
  unfold onlinePreprocess normalizeCode
  rw [List.map_map]
  rfl

/-- C2: `locFromDelayList` is the closed-form solver with the constants
`armLength = 0.32`, `armRatio = 0.4`, `epsilon = 1e-8` and squared speed
of sound `cSq = (331.45*sqrt(1+22/273.16))^2`, and the pivot
`det = delay3 - r*delay1 - r*delay2 + epsilon` is the one shared
denominator of all three coordinates: each coordinate is its numerator
divided by `2*L*det`. -/
theorem spec2proof_c2_solver_shared_denominator :
    (∀ d : Fin 4 → ℚ, ∀ i : Fin 3,
      locFromDelayList d i =
        ![(d 2 - (0.4 : ℚ) * d 1) * ((0.32 : ℚ) ^ 2 - cSq * d 0 ^ 2) +
            0.4 * d 0 * (0.32 ^ 2 - cSq * d 1 ^ 2) -
            d 0 * (2 * (0.4 * 0.32) ^ 2 - cSq * d 2 ^ 2),
          (d 2 - 0.4 * d 0) * (0.32 ^ 2 - cSq * d 1 ^ 2) +
            0.4 * d 1 * (0.32 ^ 2 - cSq * d 0 ^ 2) -
            d 1 * (2 * (0.4 * 0.32) ^ 2 - cSq * d 2 ^ 2),
          2 * 0.4 * 0.32 ^ 2 * d 3 * (1 - 0.4) +
            cSq * d 3 * (-(0.4 : ℚ) * d 0 ^ 2 - 0.4 * d 1 ^ 2 + d 2 ^ 2) +
            (d 2 - 0.4 * d 0 - 0.4 * d 1 + 1e-8) * (0.32 ^ 2 - cSq * d 3 ^ 2)] i /
        (2 * 0.32 * (d 2 - 0.4 * d 0 - 0.4 * d 1 + 1e-8))) ∧
    armLength = 0.32 ∧ armRatio = 0.4 ∧ epsilon = 1e-8 ∧
    ((cSq : ℝ) = (331.45 * Real.sqrt (1 + 22 / 273.16)) ^ 2) := by
  refine ⟨?_, rfl, rfl, rfl, ?_⟩
  · intro d i
    unfold locFromDelayList armLength armRatio epsilon
    rfl
  · have hx : (0 : ℝ) ≤ 1 + 22 / 273.16 := by norm_num
    rw [mul_pow, Real.sq_sqrt hx, cSq, tAmbient]
    push_cast
    norm_num

/-- C3: with a cleared median filter of capacity `K ≥ 1`, each of the
first `K-1` online calls returns the all-zero sentinel, and every call
from the `K`-th frame onward returns the solver applied to the per-axis
median of the last `K` delay vectors divided by the sample rate. -/
theorem spec2proof_c3_warmup (K : ℕ) (hK : 1 ≤ K) (sr : ℚ) (taus : ℕ → Fin 4 → ℤ) (n : ℕ) :
    (n + 1 < K → (runOnline K sr taus n).1 = fun _ => 0) ∧
    (K ≤ n + 1 → (runOnline K sr taus n).1 =
      locFromDelayList fun a =>
        npMedian ((List.range K).map fun i => taus (n + 1 - K + i) a) / sr) := by
  constructor
  · intro h
    rw [runOnline_fst]
    unfold onlineStep
    dsimp only
    rw [show (pushRun (RecordingQueue4D.init K) taus n).pushData (taus n) =
      pushRun (RecordingQueue4D.init K) taus (n + 1) from rfl]
    rw [if_neg (by rw [pushRun_isFull_iff]; omega)]
  · intro h
    rw [runOnline_fst]
    unfold onlineStep
    dsimp only
    rw [show (pushRun (RecordingQueue4D.init K) taus n).pushData (taus n) =
      pushRun (RecordingQueue4D.init K) taus (n + 1) from rfl]
    rw [if_pos (by rw [pushRun_isFull_iff]; omega)]
    dsimp only
    have harg : (fun a => (pushRun (RecordingQueue4D.init K) taus (n + 1)).getMedian a / sr) =
        fun a => npMedian ((List.range K).map fun i => taus (n + 1 - K + i) a) / sr := by
      funext a
      rw [getMedian_window K n (by omega) h taus a]
    rw [harg]

/-- Witness for C3 at `K = 5`, a constant delay stream and sample rate 2:
the first call returns the sentinel and the fifth call returns the
computed estimate. -/
theorem spec2proof_c3_warmup_witness :
    ((runOnline 5 2 (fun _ _ => (3 : ℤ)) 0).1 = fun _ => 0) ∧
    ((runOnline 5 2 (fun _ _ => (3 : ℤ)) 4).1 =
      locFromDelayList fun _ =>
        npMedian ((List.range 5).map fun _ => (3 : ℤ)) / 2) :=
  ⟨(spec2proof_c3_warmup 5 (by decide) 2 (fun _ _ => 3) 0).1 (by decide),
   (spec2proof_c3_warmup 5 (by decide) 2 (fun _ _ => 3) 4).2 (by decide)⟩

/-- C4 (counterexample): for capacity `K = 2`, pushing `K-1 = 1` copy of
the vector `0` and one outlier `2` into a freshly cleared queue makes
`getMedian` return `1` (the mean of the two middle values), not the
identical value `0` — the claim fails for capacities below 3. -/
theorem spec2proof_c4_counterexample :
    (pushRun (RecordingQueue4D.init 2) (fun j _ => if j = 0 then (0 : ℤ) else 2) 2).getMedian 0
      = 1 ∧ (1 : ℚ) ≠ ((0 : ℤ) : ℚ) := by
  constructor
  · have hlist : (List.range 2).map
        (fun j => (pushRun (RecordingQueue4D.init 2)
          (fun j _ => if j = 0 then (0 : ℤ) else 2) 2).recQueue j 0) = [0, 2] := by
      decide
    show npMedian ((List.range 2).map fun j => (pushRun (RecordingQueue4D.init 2)
      (fun j _ => if j = 0 then (0 : ℤ) else 2) 2).recQueue j 0) = 1
    rw [hlist, npMedian,
      mergeSort_eq_of_sorted_perm (List.Perm.refl [0, 2]) (by decide)]
    norm_num
  · norm_num

/-- C4 (amended): for every capacity `K ≥ 1`, pushing the same vector `v`
exactly `K` times into a freshly cleared queue makes `getMedian` return
exactly `v`; and for every capacity `K ≥ 3`, pushing `K-1` copies of `v`
and one outlier `w` in any order makes `getMedian` return `v`, and not
`w` whenever they differ on the axis. -/
theorem spec2proof_c4_median_smoothing (K : ℕ) (v w : Fin 4 → ℤ) :
    (1 ≤ K → ∀ a : Fin 4,
      (pushRun (RecordingQueue4D.init K) (fun _ => v) K).getMedian a = (v a : ℚ)) ∧
    (3 ≤ K → ∀ (vs : ℕ → Fin 4 → ℤ) (i : ℕ), i < K → vs i = w →
      (∀ j, j < K → j ≠ i → vs j = v) → ∀ a : Fin 4,
      (pushRun (RecordingQueue4D.init K) vs K).getMedian a = (v a : ℚ) ∧
      ((w a : ℚ) ≠ (v a : ℚ) →
        (pushRun (RecordingQueue4D.init K) vs K).getMedian a ≠ (w a : ℚ))) := by
  constructor
  · intro hK a
    unfold RecordingQueue4D.getMedian
    rw [pushRun_maxLength, pushRun_full_cols K (by omega)]
    have hrep : ((List.range K).map fun _ => v a) = List.replicate K (v a) := by
      rw [List.map_const', List.length_range]
    rw [hrep, npMedian_replicate hK]
  · intro hK3 vs i hi hvi hvj a
    have hperm := map_range_perm_outlier K i hi (fun j => vs j a) (v a)
      (fun j hj hne => by show vs j a = v a; rw [hvj j hj hne])
    have hwa : (fun j => vs j a) i = w a := by show vs i a = w a; rw [hvi]
    rw [hwa] at hperm
    have hmed : (pushRun (RecordingQueue4D.init K) vs K).getMedian a = (v a : ℚ) := by
      unfold RecordingQueue4D.getMedian
      rw [pushRun_maxLength, pushRun_full_cols K (by omega)]
      exact npMedian_majority hK3 (v a) (w a) hperm
    exact ⟨hmed, fun hne => by rw [hmed]; exact fun hc => hne hc.symm⟩

/-- Witness for C4 at `K = 5`: five identical pushes of the all-ones
vector give median one, and four ones plus one outlier nine (pushed
third) also give median one. -/
theorem spec2proof_c4_median_smoothing_witness :
    (pushRun (RecordingQueue4D.init 5) (fun _ => fun _ => (1 : ℤ)) 5).getMedian 0
      = ((1 : ℤ) : ℚ) ∧
    (pushRun (RecordingQueue4D.init 5) (fun j _ => if j = 2 then (9 : ℤ) else 1) 5).getMedian 0
      = ((1 : ℤ) : ℚ) :=
  ⟨(spec2proof_c4_median_smoothing 5 (fun _ => 1) (fun _ => 9)).1 (by decide) 0,
   ((spec2proof_c4_median_smoothing 5 (fun _ => 1) (fun _ => 9)).2 (by decide)
      (fun j _ => if j = 2 then (9 : ℤ) else 1) 2 (by decide)
      (by funext b; simp)
      (fun j hj hne => by funext b; simp [hne]) 0).1⟩

end Gcc

namespace Arr

/-! Properties of the infinity norm and condition number. -/

theorem rowSumNorm_nonneg (A : Matrix (Fin 4) (Fin 4) ℝ) : 0 ≤ rowSumNorm A := by
  rw [rowSumNorm]
  exact le_trans (Finset.sum_nonneg fun j _ => abs_nonneg (A 0 j))
    (Finset.le_sup' (fun i => ∑ j : Fin 4, |A i j|) (Finset.mem_univ 0))

theorem rowSumNorm_row_le (A : Matrix (Fin 4) (Fin 4) ℝ) (i : Fin 4) :
    (∑ j : Fin 4, |A i j|) ≤ rowSumNorm A := by
  rw [rowSumNorm]
  exact Finset.le_sup' (fun i => ∑ j : Fin 4, |A i j|) (Finset.mem_univ i)

theorem rowSumNorm_mul_le (A B : Matrix (Fin 4) (Fin 4) ℝ) :
    rowSumNorm (A * B) ≤ rowSumNorm A * rowSumNorm B := by
  conv_lhs => rw [rowSumNorm]
  apply Finset.sup'_le
  intro i _
  calc ∑ j : Fin 4, |(A * B) i j| = ∑ j : Fin 4, |∑ k : Fin 4, A i k * B k j| := by
        simp only [Matrix.mul_apply]
    _ ≤ ∑ j : Fin 4, ∑ k : Fin 4, |A i k * B k j| :=
        Finset.sum_le_sum fun j _ => Finset.abs_sum_le_sum_abs _ _
    _ = ∑ k : Fin 4, ∑ j : Fin 4, |A i k| * |B k j| := by
        rw [Finset.sum_comm]
        simp only [abs_mul]
    _ = ∑ k : Fin 4, |A i k| * ∑ j : Fin 4, |B k j| := by
        simp only [Finset.mul_sum]
    _ ≤ ∑ k : Fin 4, |A i k| * rowSumNorm B :=
        Finset.sum_le_sum fun k _ =>
          mul_le_mul_of_nonneg_left (rowSumNorm_row_le B k) (abs_nonneg _)
    _ = (∑ k : Fin 4, |A i k|) * rowSumNorm B := by rw [Finset.sum_mul]
    _ ≤ rowSumNorm A * rowSumNorm B :=
        mul_le_mul_of_nonneg_right (rowSumNorm_row_le A i) (rowSumNorm_nonneg B)

theorem rowSumNorm_one : rowSumNorm (1 : Matrix (Fin 4) (Fin 4) ℝ) = 1 := by
  have hrow : ∀ i : Fin 4, (∑ j : Fin 4, |(1 : Matrix (Fin 4) (Fin 4) ℝ) i j|) = 1 := by
    intro i
    have habs : ∀ j : Fin 4, |(1 : Matrix (Fin 4) (Fin 4) ℝ) i j| =
        if i = j then 1 else 0 := by
      intro j
      by_cases h : i = j <;> simp [Matrix.one_apply, h]
    rw [Finset.sum_congr rfl fun j _ => habs j]
    simp
  rw [rowSumNorm]
  apply le_antisymm
  · exact Finset.sup'_le _ _ fun i _ => le_of_eq (hrow i)
  · calc (1 : ℝ) = ∑ j : Fin 4, |(1 : Matrix (Fin 4) (Fin 4) ℝ) 0 j| := (hrow 0).symm
      _ ≤ _ := Finset.le_sup' (fun i => ∑ j : Fin 4, |(1 : Matrix (Fin 4) (Fin 4) ℝ) i j|)
          (Finset.mem_univ 0)

theorem one_le_condInf (A : Matrix (Fin 4) (Fin 4) ℝ) (h : IsUnit A.det) :
    1 ≤ condInf A := by
  have h1 : A * A⁻¹ = 1 := Matrix.mul_nonsing_inv A h
  calc (1 : ℝ) = rowSumNorm (A * A⁻¹) := by rw [h1, rowSumNorm_one]
    _ ≤ rowSumNorm A * rowSumNorm A⁻¹ := rowSumNorm_mul_le _ _

/-! The scan fold only ever appends points that survived both guards. -/

theorem scan_fold_invariant (mic : Fin 5 → Fin 3 → ℝ) (P : ((Fin 3 → ℝ) × ℝ) → Prop)
    (hP : ∀ p : Fin 3 → ℝ,
      ¬((Finset.univ.inf' Finset.univ_nonempty fun i => micDist mic p i) < 0.05) →
      IsUnit (matrixQ mic (gridDist mic p)).det →
      P (p, condInf (matrixQ mic (gridDist mic p)))) :
    ∀ (pts : List (Fin 3 → ℝ)) (acc res : List ((Fin 3 → ℝ) × ℝ)),
      (∀ x ∈ acc, P x) → pts.foldlM (scanPointStep mic) acc = some res →
      ∀ x ∈ res, P x := by
  intro pts
  induction pts with
  | nil =>
    intro acc res hacc hfold
    simp only [List.foldlM_nil] at hfold
    obtain rfl : acc = res := by simpa using hfold
    exact hacc
  | cons p pts ih =>
    intro acc res hacc hfold
    rw [List.foldlM_cons] at hfold
    rcases hstep : scanPointStep mic acc p with _ | acc'
    · rw [hstep] at hfold
      rw [show ((none : Option (List ((Fin 3 → ℝ) × ℝ))) >>=
        fun a => pts.foldlM (scanPointStep mic) a) = none from rfl] at hfold
      exact Option.noConfusion hfold
    · rw [hstep] at hfold
      rw [show ((some acc' : Option (List ((Fin 3 → ℝ) × ℝ))) >>=
        fun a => pts.foldlM (scanPointStep mic) a) =
          pts.foldlM (scanPointStep mic) acc' from rfl] at hfold
      refine ih acc' res ?_ hfold
      unfold scanPointStep at hstep
      split_ifs at hstep with h1 h2
      · exact (Option.some_inj.mp hstep) ▸ hacc
      · intro x hx
        rw [← Option.some_inj.mp hstep] at hx
        rcases List.mem_append.mp hx with hx1 | hx2
        · exact hacc x hx1
        · rw [List.mem_singleton.mp hx2]
          exact hP p h1 h2

theorem scan_result_forall (mic : Fin 5 → Fin 3 → ℝ) (xlim ylim zlim : ℝ × ℝ) (step : ℝ)
    (P : ((Fin 3 → ℝ) × ℝ) → Prop)
    (hP : ∀ p : Fin 3 → ℝ,
      ¬((Finset.univ.inf' Finset.univ_nonempty fun i => micDist mic p i) < 0.05) →
      IsUnit (matrixQ mic (gridDist mic p)).det →
      P (p, condInf (matrixQ mic (gridDist mic p)))) :
    ((arrayScanCond mic xlim ylim zlim step).getD []).Forall P := by
  unfold arrayScanCond
  rcases hfold : (gridPoints xlim ylim zlim step).foldlM (scanPointStep mic) []
    with _ | results
  · trivial
  · show ((if results = [] then (none : Option (List ((Fin 3 → ℝ) × ℝ)))
      else some results).getD []).Forall P
    by_cases hres : results = []
    · rw [if_pos hres]
      trivial
    · rw [if_neg hres]
      rw [show ((some results).getD ([] : List ((Fin 3 → ℝ) × ℝ))) = results from rfl]
      rw [List.forall_iff_forall_mem]
      exact scan_fold_invariant mic P hP (gridPoints xlim ylim zlim step) [] results
        (by simp) hfold

/-- C5: every ScanPoint in the list returned by `arrayScanCond` lies at
distance at least 0.05 m from each of the 5 microphones, and its stored
condition number is a real number (hence neither NaN nor Inf) that is at
least 1.  When the scan returns no list, the statement is about the
empty list. -/
theorem spec2proof_c5_scan_postcondition (mic : Fin 5 → Fin 3 → ℝ)
    (xlim ylim zlim : ℝ × ℝ) (step : ℝ) :
    ((arrayScanCond mic xlim ylim zlim step).getD []).Forall
      fun sp => (∀ i : Fin 5, 0.05 ≤ micDist mic sp.1 i) ∧ 1 ≤ sp.2 := by
  apply scan_result_forall
  intro p h1 h2
  refine ⟨fun i => ?_, one_le_condInf _ h2⟩
  have hmin : (0.05 : ℝ) ≤ Finset.univ.inf' Finset.univ_nonempty
      fun i => micDist mic p i := not_lt.mp h1
  exact le_trans hmin (Finset.inf'_le _ (Finset.mem_univ i))

end Arr

namespace Arr

/-! Evaluation of the geometry checks on the documented default
configuration. -/

theorem micV1_default : micV1 micCoordsDefault = ![0.32, 0, 0] := by
  funext j
  fin_cases j <;> simp [micV1, micCoordsDefault] <;> norm_num

theorem micV2_default : micV2 micCoordsDefault = ![0, 0.32, 0] := by
  funext j
  fin_cases j <;> simp [micV2, micCoordsDefault] <;> norm_num

theorem micNormal_default : micNormal micCoordsDefault = ![0, 0, 0.1024] := by
  rw [micNormal, micV1_default, micV2_default]
  funext j
  fin_cases j <;> simp [cross3] <;> norm_num

theorem norm3_normal_default : norm3 (micNormal micCoordsDefault) = 0.1024 := by
  rw [micNormal_default, norm3]
  rw [show ((![(0:ℝ), 0, 0.1024] 0) ^ 2 + (![(0:ℝ), 0, 0.1024] 1) ^ 2 +
    (![(0:ℝ), 0, 0.1024] 2) ^ 2) = (0.1024 : ℝ) ^ 2 by norm_num]
  exact Real.sqrt_sq (by norm_num)

theorem micDistPlane_default : micDistPlane micCoordsDefault = 0.032768 := by
  rw [micDistPlane, micNormal_default]
  simp [micCoordsDefault]
  norm_num

theorem micM_default :
    micM micCoordsDefault = (0.32 : ℝ) • (1 : Matrix (Fin 3) (Fin 3) ℝ) := by
  ext i j
  fin_cases i <;> fin_cases j <;>
    simp [micM, micV1, micV2, micCoordsDefault, Matrix.one_apply, Matrix.vecHead,
      Matrix.vecTail] <;> norm_num

theorem micM_det_default : (micM micCoordsDefault).det = 0.032768 := by
  rw [micM_default]
  rw [Matrix.det_smul, Matrix.det_one]
  norm_num

theorem micM_inv_default :
    (micM micCoordsDefault)⁻¹ = (3.125 : ℝ) • (1 : Matrix (Fin 3) (Fin 3) ℝ) := by
  apply Matrix.inv_eq_right_inv
  rw [micM_default, smul_mul_smul_comm, one_mul]
  norm_num

theorem micUVW_default : micUVW micCoordsDefault = ![0.4, 0.4, 0] := by
  rw [micUVW, micM_inv_default]
  funext j
  rw [Matrix.smul_mulVec_assoc, Matrix.one_mulVec]
  fin_cases j <;> simp [micCoordsDefault] <;> norm_num

/-- C6 (counterexample): at the default geometry, entry `(2, 0)` of the
code's matrix `Q` is `0.128` — the x-component of `mic3 - mic0` — whereas
a matrix whose column 0 were the direction vector from mic 0 to mic 1
would put that vector's z-component, `0`, there.  So columns 0-2 are not
the direction vectors to mics 1, 2, 4. -/
theorem spec2proof_c6_counterexample :
    matrixQ micCoordsDefault (fun _ => 0) 2 0 = 0.128 ∧
    micCoordsDefault 1 2 - micCoordsDefault 0 2 = 0 ∧ ((0.128 : ℝ) ≠ 0) := by
  refine ⟨?_, ?_, by norm_num⟩
  · show (if h : ((0 : Fin 4) : ℕ) < 3 then
      micCoordsDefault (2 : Fin 4).succ ⟨(0 : Fin 4), h⟩ - micCoordsDefault 0 ⟨(0 : Fin 4), h⟩
      else (0 : ℝ)) = 0.128
    rw [dif_pos (by norm_num : ((0 : Fin 4) : ℕ) < 3)]
    show micCoordsDefault 3 0 - micCoordsDefault 0 0 = 0.128
    simp [micCoordsDefault]
  · simp [micCoordsDefault]

/-- C6 (amended): at every surviving grid point the scanner stores the
condition number (infinity norm) of the 4×4 matrix `Q` whose entry
`(i, j)` for `j < 3` is the `j`-component of the fixed direction vector
from mic 0 to mic `i+1` (rows, over mics 1, 2, 3, 4 — computed once from
the array), and whose column 3 is the per-point vector of differential
ranges `dist 0 - dist (i+1)` for `i = 0..3`. -/
theorem spec2proof_c6_matrix_layout (mic : Fin 5 → Fin 3 → ℝ) (gd : Fin 4 → ℝ)
    (p : Fin 3 → ℝ) (xlim ylim zlim : ℝ × ℝ) (step : ℝ) :
    (∀ i : Fin 4, ∀ j : Fin 3, matrixQ mic gd i j.castSucc = mic i.succ j - mic 0 j) ∧
    (∀ i : Fin 4, matrixQ mic gd i 3 = gd i) ∧
    (∀ i : Fin 4, gridDist mic p i = micDist mic p 0 - micDist mic p i.succ) ∧
    ((arrayScanCond mic xlim ylim zlim step).getD []).Forall
      (fun sp => sp.2 = condInf (matrixQ mic (gridDist mic sp.1))) := by
  refine ⟨?_, ?_, fun i => rfl, ?_⟩
  · intro i j
    show (if h : ((j.castSucc : Fin 4) : ℕ) < 3 then
      mic i.succ ⟨j.castSucc, h⟩ - mic 0 ⟨j.castSucc, h⟩ else gd i) = _
    rw [dif_pos (by simpa using j.isLt)]
    congr 1 <;> exact congrArg _ (Fin.ext (by simp))
  · intro i
    show (if h : (((3 : Fin 4)) : ℕ) < 3 then
      mic i.succ ⟨(3 : Fin 4), h⟩ - mic 0 ⟨(3 : Fin 4), h⟩ else gd i) = gd i
    rw [dif_neg (by decide)]
  · apply scan_result_forall
    intro q h1 h2
    rfl

/-- C7: `validParamOfGiven` returns `false` whenever the mics 0,1,2 are
collinear or mic 4 lies exactly in their plane, or mic 3 lies outside the
tetrahedron of mics 0,1,2,4 beyond the `epsilon` tolerance, or some axis
has lower bound above upper bound, or the step is nonpositive or above 1;
and it returns `true` on the documented default configuration. -/
theorem spec2proof_c7_geometry_validation (mic : Fin 5 → Fin 3 → ℝ)
    (xlim ylim zlim : ℝ × ℝ) (step : Option ℝ) :
    ((micNormal mic = fun _ => 0) ∨ micDistPlane mic = 0 ∨
      (micUVW mic 0 < -epsilon ∨ micUVW mic 1 < -epsilon ∨ micUVW mic 2 < -epsilon ∨
        1 + epsilon < micUVW mic 0 + micUVW mic 1 + micUVW mic 2) ∨
      xlim.1 > xlim.2 ∨ ylim.1 > ylim.2 ∨ zlim.1 > zlim.2 ∨
      (∃ s, step = some s ∧ (s ≤ 0 ∨ 1 < s)) →
      validParamOfGiven mic xlim ylim zlim step = false) ∧
    validParamOfGiven micCoordsDefault (-1, 1) (-1, 1) (-1, 1) (some 0.02) = true := by
  constructor
  · intro hbad
    unfold validParamOfGiven
    split_ifs with h1 h2 h3 h4 h5 h6 <;> try rfl
    · obtain ⟨c1, c2, c3, c4⟩ := h6
      rcases hbad with hnormal | hplane | houts | hb1 | hb2 | hb3 | ⟨s, hs, hcond⟩
      · exact h3 (by rw [hnormal, norm3]; norm_num [Real.sqrt_zero, epsilon])
      · refine h4 ?_
        rw [hplane, abs_zero]
        exact mul_nonneg (by norm_num [epsilon])
          (le_trans zero_le_one (le_max_left 1 _))
      · rcases houts with ho | ho | ho | ho
        · exact absurd c1 (by simpa using not_le.mpr ho)
        · exact absurd c2 (by simpa using not_le.mpr ho)
        · exact absurd c3 (by simpa using not_le.mpr ho)
        · exact absurd c4 (not_le.mpr ho)
      · exact h1 (Or.inl hb1)
      · exact h1 (Or.inr (Or.inl hb2))
      · exact h1 (Or.inr (Or.inr hb3))
      · subst hs
        exact h2 hcond
  · rw [validParamOfGiven]
    rw [if_neg (by norm_num)]
    rw [if_neg (by norm_num)]
    rw [if_neg (by rw [norm3_normal_default]; norm_num [epsilon])]
    rw [if_neg (by
      rw [norm3_normal_default, micDistPlane_default, show max (1:ℝ) 0.1024 = 1 by norm_num,
        show |(0.032768 : ℝ)| = 0.032768 from abs_of_pos (by norm_num)]
      norm_num [epsilon])]
    rw [if_neg (by
      rw [micM_det_default, show |(0.032768 : ℝ)| = 0.032768 from abs_of_pos (by norm_num)]
      norm_num [epsilon])]
    rw [if_neg (by
      rw [micUVW_default]
      norm_num [epsilon])]

/-- Witness for C7: an all-zero (collinear) microphone layout is rejected,
and the default configuration is accepted. -/
theorem spec2proof_c7_geometry_validation_witness :
    validParamOfGiven (fun _ _ => 0) (0, 1) (0, 1) (0, 1) (some 0.02) = false ∧
    validParamOfGiven micCoordsDefault (-1, 1) (-1, 1) (-1, 1) (some 0.02) = true :=
  ⟨(spec2proof_c7_geometry_validation (fun _ _ => 0) (0, 1) (0, 1) (0, 1) (some 0.02)).1
      (Or.inl (by funext j; fin_cases j <;> simp [micNormal, cross3, micV1, micV2])),
   (spec2proof_c7_geometry_validation micCoordsDefault (-1, 1) (-1, 1) (-1, 1)
      (some 0.02)).2⟩

end Arr

namespace Online

/-! The consumer loop always performs the full cleanup, and reports
`true` only on a clean stop with no falsy frame. -/

theorem consumerLoop_state (frames : List Frame) (ending : LoopEnd) (s : SessionState) :
    (consumerLoop frames ending s).1.startFlag = false ∧
    (consumerLoop frames ending s).1.dataQueue = [] ∧
    (consumerLoop frames ending s).1.deviceOpen = false ∧
    (consumerLoop frames ending s).1.producerJoined =
      (s.producerStarted || s.producerJoined) ∧
    (consumerLoop frames ending s).1.producerStarted = s.producerStarted := by
  induction frames with
  | nil => cases ending <;> simp [consumerLoop, sessionCleanup]
  | cons f rest ih =>
    by_cases hf : f.isEmpty
    · simp [consumerLoop, hf, sessionCleanup]
    · simpa [consumerLoop, hf] using ih

theorem consumerLoop_result (frames : List Frame) (ending : LoopEnd) (s : SessionState) :
    (consumerLoop frames ending s).2 = true ↔
      (ending = LoopEnd.stopRequested ∧ ∀ f ∈ frames, f ≠ ([] : List ℤ)) := by
  induction frames with
  | nil =>
    cases ending <;> simp [consumerLoop]
  | cons f rest ih =>
    show (if f.isEmpty then (sessionCleanup s, false)
      else consumerLoop rest ending s).2 = true ↔ _
    by_cases hf : f.isEmpty
    · rw [if_pos hf]
      rw [List.isEmpty_iff] at hf
      constructor
      · intro h
        exact absurd h (by simp)
      · rintro ⟨-, hall⟩
        exact absurd hf (hall f (List.mem_cons_self f rest))
    · rw [if_neg hf]
      rw [ih]
      rw [List.isEmpty_iff] at hf
      constructor
      · rintro ⟨he, hall⟩
        refine ⟨he, fun g hg => ?_⟩
        rcases List.mem_cons.mp hg with rfl | hg2
        · exact hf
        · exact hall g hg2
      · rintro ⟨he, hall⟩
        exact ⟨he, fun g hg => hall g (List.mem_cons_of_mem f hg)⟩

/-- Unfolding `startOnlineTask` on the two device-open outcomes. -/
theorem startOnlineTask_open_fail (retOpen : ℤ) (h : retOpen ≠ 0) (frames : List Frame)
    (ending : LoopEnd) :
    startOnlineTask retOpen frames ending initialState =
      (⟨false, false, false, false, []⟩, false) := by
  unfold startOnlineTask
  rw [if_pos h]
  rfl

theorem startOnlineTask_open_ok (frames : List Frame) (ending : LoopEnd) :
    startOnlineTask 0 frames ending initialState =
      consumerLoop frames ending ⟨true, true, true, false, []⟩ := by
  unfold startOnlineTask
  rw [if_neg (by norm_num)]
  rfl

/-- C8: on every exit path of `startOnlineTask` — device-open failure,
any exception in the consumer loop (timeout, falsy frame, processing
error), or a requested stop — the session terminates as a whole: the
running flag is cleared, the producer thread is joined whenever it was
started, the frame queue is drained, the device is closed, and the call
reports one boolean that is `true` exactly on a clean stop with the
device opened and no failure. -/
theorem spec2proof_c8_session_cleanup (retOpen : ℤ) (frames : List Frame)
    (ending : LoopEnd) :
    (startOnlineTask retOpen frames ending initialState).1.startFlag = false ∧
    (startOnlineTask retOpen frames ending initialState).1.dataQueue = [] ∧
    (startOnlineTask retOpen frames ending initialState).1.deviceOpen = false ∧
    ((startOnlineTask retOpen frames ending initialState).1.producerStarted = true →
      (startOnlineTask retOpen frames ending initialState).1.producerJoined = true) ∧
    ((startOnlineTask retOpen frames ending initialState).2 = true ↔
      (retOpen = 0 ∧ ending = LoopEnd.stopRequested ∧
        ∀ f ∈ frames, f ≠ ([] : List ℤ))) := by
  by_cases hopen : retOpen ≠ 0
  · rw [startOnlineTask_open_fail retOpen hopen frames ending]
    refine ⟨rfl, rfl, rfl, fun h => by exact absurd h (by simp), ?_⟩
    simp only [false_iff, Bool.false_eq_true]
    rintro ⟨h0, -⟩
    exact hopen h0
  · push_neg at hopen
    subst hopen
    rw [startOnlineTask_open_ok frames ending]
    obtain ⟨h1, h2, h3, h4, -⟩ := consumerLoop_state frames ending
      ⟨true, true, true, false, []⟩
    refine ⟨h1, h2, h3, fun _ => by rw [h4]; rfl, ?_⟩
    rw [consumerLoop_result]
    constructor
    · rintro ⟨he, hall⟩
      exact ⟨rfl, he, hall⟩
    · rintro ⟨-, he, hall⟩
      exact ⟨he, hall⟩

/-- C10: a falsy (empty) frame popped anywhere in the stream is fatal
exactly like a queue timeout: the loop never reaches the frames behind
it, the session performs the full cleanup, and `startOnlineTask` returns
`false`. -/
theorem spec2proof_c10_empty_frame_fatal (pre post : List Frame) (ending : LoopEnd) :
    (∀ s : SessionState, consumerLoop (pre ++ ([] : List ℤ) :: post) ending s =
      consumerLoop pre LoopEnd.queueTimeout s) ∧
    (startOnlineTask 0 (pre ++ ([] : List ℤ) :: post) ending initialState).2 = false ∧
    (startOnlineTask 0 (pre ++ ([] : List ℤ) :: post) ending initialState).1.startFlag
      = false ∧
    (startOnlineTask 0 (pre ++ ([] : List ℤ) :: post) ending initialState).1.dataQueue
      = [] ∧
    (startOnlineTask 0 (pre ++ ([] : List ℤ) :: post) ending initialState).1.deviceOpen
      = false ∧
    (startOnlineTask 0 (pre ++ ([] : List ℤ) :: post) ending initialState).1.producerJoined
      = true := by
  have hloop : ∀ s : SessionState, consumerLoop (pre ++ ([] : List ℤ) :: post) ending s =
      consumerLoop pre LoopEnd.queueTimeout s := by
    intro s
    induction pre generalizing s with
    | nil => simp [consumerLoop]
    | cons f rest ih =>
      show (if f.isEmpty then (sessionCleanup s, false)
        else consumerLoop (rest ++ ([] : List ℤ) :: post) ending s) = _
      by_cases hf : f.isEmpty
      · rw [if_pos hf]
        show _ = (if f.isEmpty then (sessionCleanup s, false)
          else consumerLoop rest LoopEnd.queueTimeout s)
        rw [if_pos hf]
      · rw [if_neg hf, ih s]
        show _ = (if f.isEmpty then (sessionCleanup s, false)
          else consumerLoop rest LoopEnd.queueTimeout s)
        rw [if_neg hf]
  rw [startOnlineTask_open_ok (pre ++ ([] : List ℤ) :: post) ending]
  obtain ⟨h1, h2, h3, h4, -⟩ := consumerLoop_state (pre ++ ([] : List ℤ) :: post) ending
    ⟨true, true, true, false, []⟩
  refine ⟨hloop, ?_, h1, h2, h3, by rw [h4]; rfl⟩
  rw [Bool.eq_false_iff]
  intro hcontr
  rw [consumerLoop_result] at hcontr
  obtain ⟨-, hall⟩ := hcontr
  exact hall ([] : List ℤ) (by simp) rfl

end Online

namespace Off

theorem maskTriu_eq : maskTriu = [1, 2, 3, 4, 7, 8, 9, 13, 14, 19] := by decide

theorem getD_map_range {α : Type} (n i : ℕ) (g : ℕ → α) (d : α) (h : i < n) :
    ((List.range n).map g).getD i d = g i := by
  rw [List.getD_eq_getElem _ _ (by simpa using h)]
  simp

theorem gccRowsTop4_eq (irfft : List ℂ → List ℝ) (pZ : ℕ → ℕ → ℂ) (F t : ℕ) :
    gccRowsTop4 irfft pZ F t = (List.range 4).map fun p => irfft (ccRow pZ F t p) := by
  unfold gccRowsTop4 gccRows
  rw [← List.map_take, ← List.map_take, List.take_range]
  norm_num [List.map_map]

theorem ccRow_reference_pair (pZ : ℕ → ℕ → ℂ) (F t : ℕ) (p : Fin 4) :
    ccRow pZ F t (p : ℕ) = (List.range F).map fun f =>
      pZ 0 (t * F + f) * (starRingEnd ℂ) (pZ ((p : ℕ) + 1) (t * F + f)) := by
  unfold ccRow
  rw [List.map_inj_left]
  intro f hf
  fin_cases p <;>
    simp [ccFlatPairs, maskTriu_eq, ccEntry] <;> norm_num

/-- C9: in the offline estimator, per STFT frame (hop `sampleNum // 2`),
PHAT-weighted cross-spectra are formed for all 10 unordered microphone
pairs per frequency bin, in upper-triangle order; slicing to the first 4
rows after the row-wise inverse FFT keeps exactly the 4 pairs against
the reference microphone 0, namely (0,1), (0,2), (0,3), (0,4); and the
returned 4×T matrix entry `(p, t)` is the integer sample offset obtained
by per-frame peak-picking on those rows. -/
theorem spec2proof_c9_offline_reference_pairs (irfft : List ℂ → List ℝ)
    (Y : ℕ → ℕ → ℂ) (F t sampleNum : ℕ) :
    (maskTriu.map (fun idx => (idx / 5, idx % 5)) =
      [(0, 1), (0, 2), (0, 3), (0, 4), (1, 2), (1, 3), (1, 4), (2, 3), (2, 4), (3, 4)]) ∧
    (gccRowsTop4 irfft (fun c k => phat (Y c k)) F t =
      (List.range 4).map fun p => irfft (ccRow (fun c k => phat (Y c k)) F t p)) ∧
    (∀ p : Fin 4, ccRow (fun c k => phat (Y c k)) F t (p : ℕ) =
      (List.range F).map fun f =>
        phat (Y 0 (t * F + f)) * (starRingEnd ℂ) (phat (Y ((p : ℕ) + 1) (t * F + f)))) ∧
    (stftShift sampleNum = sampleNum / 2 ∧ numFreq sampleNum = sampleNum / 2 + 1) ∧
    (∀ p : Fin 4, offlineTau irfft (fun c k => phat (Y c k)) sampleNum t p =
      (npArgmax ((irfft (ccRow (fun c k => phat (Y c k)) (numFreq sampleNum) t
        (p : ℕ))).map fun x => |x|) : ℤ) - ((sampleNum / 2 : ℕ) : ℤ)) := by
  refine ⟨by decide, gccRowsTop4_eq _ _ F t,
    fun p => ccRow_reference_pair (fun c k => phat (Y c k)) F t p, ⟨rfl, rfl⟩, ?_⟩
  intro p
  unfold offlineTau
  rw [gccRowsTop4_eq, getD_map_range 4 (p : ℕ)
    (fun q => irfft (ccRow (fun c k => phat (Y c k)) (numFreq sampleNum) t q)) [] p.isLt]
  rfl

end Off
